import Mathlib

/-!
# Converse-Hub: verification of the branching/versioning message model

Shallow embedding of `src/app/page.tsx` (the only source file of the
repository).  The component keeps a remote table of `Message` rows in an
external store, a local snapshot of that table, an input line, an optional
selected message and per-node branch visibility.  The embedding models:

* `sendMessage`   — the insert path used by Send / Edit / Branch Reply,
* `fetchMessages` — the snapshot refetch with its error handling,
* `toggleBranchesVisibility` — the per-node visibility toggle,
* `renderMessages` / `renderSiblings` — the recursive view projection,
* `deleteMessageRecursive` — the cascading delete (with explicit fuel for
  the unbounded recursion, and a trace of the delete-by-id calls issued).

`created_at` is modelled as a natural number (the store-assigned creation
time); the source holds it as a timestamp string ordered chronologically by
the store.  Store-assigned fields (`id`, `created_at`) appear as explicit
arguments of the insert operation.
-/

/-- A row of the `messages` table (`interface Message` in the source). -/
structure Message where
  id : Nat
  content : String
  parent_id : Option Nat
  version : Nat
  created_at : Nat
deriving DecidableEq, Repr

/-- Embeds the guard `input.trim() === ''` of `sendMessage`: a string is
blank iff every character is whitespace (so trimming it leaves nothing). -/
def isBlank (s : String) : Bool :=
  s.toList.all Char.isWhitespace

/-- The component state: the remote table (`messages` table in the store),
the local snapshot (`messages` React state), the input line, the selected
message, the branch-visibility map (absent entry = `false`, as for a JS
`Record`) and the error banner. -/
structure AppState where
  store : List Message
  messages : List Message
  input : String
  selectedMessage : Option Message
  branchesVisible : Nat → Bool
  errorMessage : Option String

/-- Embeds `sendMessage(parentMessage)`.  `newId` and `now` are the
store-assigned id and creation time of the inserted row; `insertOk` is the
outcome of the store insert (`true` = no `StoreError`).  Mirrors the
source: an early return on blank input; otherwise an insert of
`{content: input, parent_id: parentMessage ? parentMessage.parent_id : null,
version: parentMessage ? parentMessage.version + 1 : 1}` followed by
clearing `input` and `selectedMessage`, and on failure only the error
banner is set. -/
def sendMessage (st : AppState) (parentMessage : Option Message)
    (newId now : Nat) (insertOk : Bool) : AppState :=
  if isBlank st.input then st
  else if insertOk then
    { st with
      store := st.store ++
        [{ id := newId
           content := st.input
           parent_id := match parentMessage with
             | some p => p.parent_id
             | none => none
           version := match parentMessage with
             | some p => p.version + 1
             | none => 1
           created_at := now }]
      input := ""
      selectedMessage := none }
  else
    { st with errorMessage := some "Error sending message. Please try again." }

/-- Embeds `fetchMessages`.  `result` is the outcome of the
`select * order by parent_id desc, version desc, created_at desc` call:
`some data` installs the new snapshot, `none` (a `StoreError`) sets the
error banner and leaves everything else untouched. -/
def fetchMessages (st : AppState) (result : Option (List Message)) : AppState :=
  match result with
  | some data => { st with messages := data }
  | none => { st with errorMessage := some "Error fetching messages. Please try again." }

/-- Embeds `toggleBranchesVisibility`: `{...prev, [messageId]: !prev[messageId]}`. -/
def toggleBranchesVisibility (vis : Nat → Bool) (messageId : Nat) : Nat → Bool :=
  fun j => if j = messageId then !(vis messageId) else vis j

/-- The comparator of `renderMessages`: `(a, b) => b.version - a.version`
sorts siblings by descending `version`; the JS array sort is stable
(ES2019), which `List.insertionSort` with this non-strict relation models
extensionally. -/
def vOrd (a b : Message) : Prop := b.version ≤ a.version

instance : DecidableRel vOrd := fun a b => Nat.decLe b.version a.version

/-- The sibling list computed at the top of `renderMessages`:
`messages.filter(m => m.parent_id === parentId).sort((a, b) => b.version - a.version)`. -/
def renderSiblings (msgs : List Message) (parentId : Option Nat) : List Message :=
  List.insertionSort vOrd (msgs.filter (fun m => m.parent_id == parentId))

/-- Embeds the recursive view projection `renderMessages(parentId, level)`:
emit each sibling with its depth and, only when `branchesVisible[message.id]`
is set, recurse into its children at `level + 1`.  The source recursion is
unbounded on cyclic data, hence the explicit `fuel`. -/
def renderMessages (fuel : Nat) (msgs : List Message) (vis : Nat → Bool)
    (parentId : Option Nat) (level : Nat) : List (Message × Nat) :=
  match fuel with
  | 0 => []
  | fuel + 1 =>
    (renderSiblings msgs parentId).flatMap (fun m =>
      (m, level) ::
        (if vis m.id then renderMessages fuel msgs vis (some m.id) (level + 1) else []))

/-- The sequential child loop of `deleteMessageRecursive`: delete each
child subtree in order, threading the store and concatenating the traces
of issued delete-by-id calls.  The recursive call is abstracted as
`delRec` so that the loop is structural in the worklist. -/
def deleteChildren (delRec : Nat → List Message → Option (List Message × List Nat)) :
    List Nat → List Message → Option (List Message × List Nat)
  | [], store => some (store, [])
  | c :: cs, store =>
    match delRec c store with
    | none => none
    | some (s₁, tr₁) =>
      match deleteChildren delRec cs s₁ with
      | none => none
      | some (s₂, tr₂) => some (s₂, tr₁ ++ tr₂)

/-- Embeds `deleteMessageRecursive(messageId)` over a store modelled as the
list of rows: fetch all children (`eq('parent_id', messageId)`), recursively
delete each, then delete the row itself (`delete().eq('id', messageId)`).
Returns the remaining store and the trace of delete-by-id calls in issue
order; `none` models fuel exhaustion (the source recursion is unbounded on
cyclic data). -/
def deleteMessageRecursive : Nat → Nat → List Message → Option (List Message × List Nat)
  | 0, _, _ => none
  | fuel + 1, messageId, store =>
    let children := (store.filter (fun m => m.parent_id == some messageId)).map (fun m => m.id)
    match deleteChildren (deleteMessageRecursive fuel) children store with
    | none => none
    | some (s₁, tr) => some (s₁.filter (fun m => m.id != messageId), tr ++ [messageId])

/-- `Reaches store m n`: the `parent_id` chain of `m` through `store`
reaches the id `n`; i.e. `m` is a transitive descendant of the node `n`. -/
inductive Reaches (store : List Message) : Message → Nat → Prop where
  | parent : ∀ m n, m.parent_id = some n → Reaches store m n
  | step : ∀ m p n, p ∈ store → m.parent_id = some p.id → Reaches store p n →
      Reaches store m n

/-- A descending parent chain: `ParentChain i [m₁, …, mₖ]` holds when
`m₁.parent_id = some i` and each later element is a child of the previous
one.  Used to analyse fuel exhaustion of the cascading delete. -/
def ParentChain : Nat → List Message → Prop
  | _, [] => True
  | i, m :: rest => m.parent_id = some i ∧ ParentChain m.id rest

/-- The display order of the spec: descending `version`, ties broken by
descending `created_at`. -/
def dispOrd (a b : Message) : Prop :=
  b.version < a.version ∨ (a.version = b.version ∧ b.created_at ≤ a.created_at)

instance : DecidableRel dispOrd := fun a b => by
  unfold dispOrd
  infer_instance

/-! Concrete fixtures: the scenario of spec §8 — a root lineage with two
versions and a branch reply hung off id 1 — and the component states used
to exercise the mutation paths. -/

def msgHello : Message := ⟨1, "Hello", none, 1, 0⟩
def msgHelloV2 : Message := ⟨2, "Hello v2", none, 2, 5⟩
def msgReplyA : Message := ⟨3, "Reply A", some 1, 1, 7⟩

def demoStore : List Message := [msgHello, msgHelloV2, msgReplyA]

def blankState : AppState :=
  { store := demoStore, messages := demoStore, input := "  ",
    selectedMessage := none, branchesVisible := fun _ => false, errorMessage := none }

def editWhitespaceState : AppState :=
  { store := [msgHello], messages := [msgHello], input := " ",
    selectedMessage := some msgHello, branchesVisible := fun _ => false, errorMessage := none }

def editState : AppState :=
  { store := [msgHello], messages := [msgHello], input := "Hello v2",
    selectedMessage := some msgHello, branchesVisible := fun _ => false, errorMessage := none }

def branchState : AppState :=
  { store := [msgHello], messages := [msgHello], input := "Reply A",
    selectedMessage := some msgHello, branchesVisible := fun _ => false, errorMessage := none }

/-! ## The specification of one cascading-delete call

`RecSpec delRec` collects, for every successful run `delRec i store =
some (s', tr)`:

* the surviving rows are exactly the rows whose id was never deleted,
* the trace ends with the delete of `i` itself,
* at every point of the trace where some id `p` is deleted, every message
  of the incoming store whose `parent_id` is `p` has already been deleted,
* every deleted id is `i` or the id of a store row that reaches `i`.
-/
def RecSpec (delRec : Nat → List Message → Option (List Message × List Nat)) : Prop :=
  ∀ i store s' tr, delRec i store = some (s', tr) →
    (∀ m, m ∈ s' ↔ m ∈ store ∧ m.id ∉ tr) ∧
    (∃ t', tr = t' ++ [i]) ∧
    (∀ t₁ p t₂, tr = t₁ ++ p :: t₂ → ∀ m ∈ store, m.parent_id = some p → m.id ∈ t₁) ∧
    (∀ x ∈ tr, x = i ∨ ∃ q ∈ store, q.id = x ∧ Reaches store q i)

/-! ## Helper lemmas about `Reaches` -/

theorem reaches_mono {s₁ s₂ : List Message} (hsub : ∀ x ∈ s₁, x ∈ s₂) {m : Message} {n : Nat}
    (h : Reaches s₁ m n) : Reaches s₂ m n := by
  induction h with
  | parent m n hp => exact Reaches.parent m n hp
  | step m p n hp hpar _ ih => exact Reaches.step m p n (hsub p hp) hpar ih

theorem reaches_trans_aux {store : List Message} {a : Message} {k : Nat}
    (h₁ : Reaches store a k) :
    ∀ {w : Message}, w ∈ store → w.id = k → ∀ {n : Nat}, Reaches store w n →
      Reaches store a n := by
  induction h₁ with
  | parent m j hp =>
    intro w hw hwk n h₂
    exact Reaches.step m w n hw (hwk ▸ hp) h₂
  | step m p j hp hpar _ ih =>
    intro w hw hwk n h₂
    exact Reaches.step m p n hp hpar (ih hw hwk h₂)

theorem reaches_trans {store : List Message} {a w : Message} {n : Nat}
    (h₁ : Reaches store a w.id) (hw : w ∈ store) (h₂ : Reaches store w n) :
    Reaches store a n :=
  reaches_trans_aux h₁ hw rfl h₂

theorem append_singleton_eq {α : Type _} {a t₁ t₂ : List α} {x p : α}
    (h : a ++ [x] = t₁ ++ p :: t₂) :
    (t₁ = a ∧ p = x ∧ t₂ = []) ∨ ∃ t₂', a = t₁ ++ p :: t₂' ∧ t₂ = t₂' ++ [x] := by
  rcases List.eq_nil_or_concat t₂ with rfl | ⟨t₂', y, rfl⟩
  · have h' : a ++ [x] = t₁ ++ [p] := h
    obtain ⟨ha, hx⟩ := List.append_inj' h' rfl
    exact Or.inl ⟨ha.symm, (List.cons.injEq .. ▸ hx).1.symm, rfl⟩
  · rw [List.concat_eq_append] at h
    have h' : a ++ [x] = (t₁ ++ p :: t₂') ++ [y] := by
      rw [h]; simp
    obtain ⟨ha, hx⟩ := List.append_inj' h' rfl
    have hxy : x = y := by simpa using hx
    exact Or.inr ⟨t₂', ha, by rw [hxy, List.concat_eq_append]⟩

theorem deleteChildren_spec (delRec : Nat → List Message → Option (List Message × List Nat))
    (hrec : RecSpec delRec) :
    ∀ (ids : List Nat) (store s' : List Message) (tr : List Nat),
      deleteChildren delRec ids store = some (s', tr) →
      (∀ m, m ∈ s' ↔ m ∈ store ∧ m.id ∉ tr) ∧
      (∀ c ∈ ids, c ∈ tr) ∧
      (∀ t₁ p t₂, tr = t₁ ++ p :: t₂ → ∀ m ∈ store, m.parent_id = some p → m.id ∈ t₁) ∧
      (∀ x ∈ tr, ∃ c ∈ ids, x = c ∨ ∃ q ∈ store, q.id = x ∧ Reaches store q c) := by
  intro ids
  induction ids with
  | nil =>
    intro store s' tr h
    simp only [deleteChildren, Option.some.injEq, Prod.mk.injEq] at h
    obtain ⟨rfl, rfl⟩ := h
    refine ⟨by simp, by simp, ?_, by simp⟩
    intro t₁ p t₂ h
    exact absurd h.symm (List.append_ne_nil_of_right_ne_nil t₁ (List.cons_ne_nil p t₂))
  | cons c cs ih =>
    intro store s' tr h
    simp only [deleteChildren] at h
    cases hc : delRec c store with
    | none => rw [hc] at h; exact absurd h (by simp)
    | some r₁ =>
      obtain ⟨s₁, tr₁⟩ := r₁
      rw [hc] at h
      dsimp only at h
      cases hcs : deleteChildren delRec cs s₁ with
      | none => rw [hcs] at h; exact absurd h (by simp)
      | some r₂ =>
        obtain ⟨s₂, tr₂⟩ := r₂
        rw [hcs] at h
        simp only [Option.some.injEq, Prod.mk.injEq] at h
        obtain ⟨rfl, rfl⟩ := h
        obtain ⟨hmem₁, ⟨t₀, htr₁⟩, hsplit₁, hsrc₁⟩ := hrec c store s₁ tr₁ hc
        obtain ⟨hmem₂, hcov₂, hsplit₂, hsrc₂⟩ := ih s₁ s₂ tr₂ hcs
        have hsub₁ : ∀ x ∈ s₁, x ∈ store := fun x hx => ((hmem₁ x).mp hx).1
        refine ⟨?_, ?_, ?_, ?_⟩
        · intro m
          rw [hmem₂ m, hmem₁ m]
          simp only [List.mem_append]
          tauto
        · intro c' hc'
          rcases List.mem_cons.mp hc' with rfl | hmem'
          · exact List.mem_append_left _ (htr₁ ▸ List.mem_append_right _ (by simp))
          · exact List.mem_append_right _ (hcov₂ c' hmem')
        · intro t₁ p t₂ hsplit m hm hpar
          rcases List.append_eq_append_iff.mp hsplit with ⟨a', ht₁, htr₂⟩ | ⟨c', htr₁', hpt⟩
          · by_cases hms₁ : m ∈ s₁
            · exact ht₁ ▸ List.mem_append_right _ (hsplit₂ a' p t₂ htr₂ m hms₁ hpar)
            · have : m.id ∈ tr₁ := by
                by_contra hno
                exact hms₁ ((hmem₁ m).mpr ⟨hm, hno⟩)
              exact ht₁ ▸ List.mem_append_left _ this
          · cases c' with
            | nil =>
              simp only [List.append_nil] at htr₁'
              have htr₂' : tr₂ = [] ++ p :: t₂ := by simpa using hpt.symm
              by_cases hms₁ : m ∈ s₁
              · exact absurd (hsplit₂ [] p t₂ htr₂' m hms₁ hpar) (by simp)
              · have : m.id ∈ tr₁ := by
                  by_contra hno
                  exact hms₁ ((hmem₁ m).mpr ⟨hm, hno⟩)
                exact htr₁' ▸ this
            | cons d c'' =>
              obtain ⟨rfl, ht₂⟩ : p = d ∧ t₂ = c'' ++ tr₂ := by
                have := hpt
                simp only [List.cons_append, List.cons.injEq] at this
                exact ⟨this.1, this.2⟩
              exact hsplit₁ t₁ p c'' htr₁' m hm hpar
        · intro x hx
          rcases List.mem_append.mp hx with hx₁ | hx₂
          · rcases hsrc₁ x hx₁ with hxc | ⟨q, hq, hqid, hqr⟩
            · exact ⟨c, by simp, Or.inl hxc⟩
            · exact ⟨c, by simp, Or.inr ⟨q, hq, hqid, hqr⟩⟩
          · obtain ⟨c', hc', hx'⟩ := hsrc₂ x hx₂
            rcases hx' with hxc | ⟨q, hq, hqid, hqr⟩
            · exact ⟨c', by simp [hc'], Or.inl hxc⟩
            · exact ⟨c', by simp [hc'], Or.inr ⟨q, hsub₁ q hq, hqid, reaches_mono hsub₁ hqr⟩⟩

theorem mem_childIds {store : List Message} {i x : Nat} :
    x ∈ (store.filter (fun m => m.parent_id == some i)).map (fun m => m.id) ↔
      ∃ m ∈ store, m.id = x ∧ m.parent_id = some i := by
  simp only [List.mem_map, List.mem_filter, beq_iff_eq]
  constructor
  · rintro ⟨m, ⟨hm, hpar⟩, rfl⟩
    exact ⟨m, hm, rfl, hpar⟩
  · rintro ⟨m, hm, rfl, hpar⟩
    exact ⟨m, ⟨hm, hpar⟩, rfl⟩

theorem deleteRec_spec : ∀ fuel, RecSpec (deleteMessageRecursive fuel) := by
  intro fuel
  induction fuel with
  | zero =>
    intro i store s' tr h
    simp [deleteMessageRecursive] at h
  | succ f ih =>
    intro i store s' tr h
    simp only [deleteMessageRecursive] at h
    cases hdc : deleteChildren (deleteMessageRecursive f)
        ((store.filter (fun m => m.parent_id == some i)).map (fun m => m.id)) store with
    | none => rw [hdc] at h; exact absurd h (by simp)
    | some r =>
      obtain ⟨s₁, trL⟩ := r
      rw [hdc] at h
      simp only [Option.some.injEq, Prod.mk.injEq] at h
      obtain ⟨rfl, rfl⟩ := h
      obtain ⟨hmem, hcov, hsplit, hsrc⟩ := deleteChildren_spec _ ih _ store s₁ trL hdc
      refine ⟨?_, ⟨trL, rfl⟩, ?_, ?_⟩
      · intro m
        simp only [List.mem_filter, bne_iff_ne, ne_eq, hmem m, List.mem_append,
          List.mem_singleton]
        tauto
      · intro t₁ p t₂ hs m hm hpar
        rcases append_singleton_eq hs with ⟨rfl, rfl, rfl⟩ | ⟨t₂', htrL, rfl⟩
        · exact hcov m.id (mem_childIds.mpr ⟨m, hm, rfl, hpar⟩)
        · exact hsplit t₁ p t₂' htrL m hm hpar
      · intro x hx
        rcases List.mem_append.mp hx with hxL | hxi
        · obtain ⟨c, hc, hx'⟩ := hsrc x hxL
          obtain ⟨mc, hmc, hmcid, hmcpar⟩ := mem_childIds.mp hc
          rcases hx' with rfl | ⟨q, hq, hqid, hqr⟩
          · exact Or.inr ⟨mc, hmc, hmcid, Reaches.parent mc i hmcpar⟩
          · exact Or.inr ⟨q, hq, hqid,
              reaches_trans (hmcid ▸ hqr) hmc (Reaches.parent mc i hmcpar)⟩
        · exact Or.inl (by simpa using hxi)

theorem descendant_id_in_trace {fuel N : Nat} {store s' : List Message} {tr : List Nat}
    (h : deleteMessageRecursive fuel N store = some (s', tr)) :
    ∀ m, Reaches store m N → m ∈ store → m.id ∈ tr := by
  obtain ⟨hmem, ⟨t', htr⟩, hsplit, hsrc⟩ := deleteRec_spec fuel N store s' tr h
  have main : ∀ (m : Message) (n : Nat), Reaches store m n → n = N → m ∈ store → m.id ∈ tr := by
    intro m n hr
    induction hr with
    | parent a k hp =>
      rintro rfl ha
      have hform : tr = t' ++ k :: [] := htr
      exact htr ▸ List.mem_append_left _ (hsplit t' k [] hform a ha hp)
    | step a q k hq hpar _ ih =>
      rintro rfl ha
      have hqid : q.id ∈ tr := ih rfl hq
      obtain ⟨u, v, huv⟩ := List.append_of_mem hqid
      have := hsplit u q.id v huv a ha hpar
      exact huv ▸ List.mem_append_left _ this
  exact fun m hr hm => main m N hr rfl hm

/-- **C2.** For every message collection and every id `N` in it, after the
cascading delete of `N` completes (returns with remaining store `s'` and
trace `tr`), `N` and every message whose `parent_id` chain reaches `N` are
absent from the store: every surviving row has an id different from `N` and
does not reach `N`. -/
theorem delete_cascades_removes_subtree {fuel N : Nat} {store s' : List Message} {tr : List Nat}
    (h : deleteMessageRecursive fuel N store = some (s', tr)) :
    ∀ m ∈ s', m.id ≠ N ∧ ¬ Reaches store m N := by
  obtain ⟨hmem, ⟨t', htr⟩, hsplit, hsrc⟩ := deleteRec_spec fuel N store s' tr h
  intro m hm
  obtain ⟨hms, hnotr⟩ := (hmem m).mp hm
  constructor
  · intro hid
    exact hnotr (hid ▸ htr ▸ List.mem_append_right _ (by simp))
  · intro hr
    exact hnotr (descendant_id_in_trace h m hr hms)

theorem delete_cascades_removes_subtree_witness :
    msgHelloV2.id ≠ 1 ∧ ¬ Reaches demoStore msgHelloV2 1 :=
  @delete_cascades_removes_subtree 4 1 demoStore [msgHelloV2] [3, 1]
    (by rfl) msgHelloV2 (by simp)

/-- **C3.** The cascading delete of `N` leaves every message that is not
`N` and not a transitive descendant of `N` in the store (in particular the
other versions sharing `N`'s `parent_id`).  Ids are store-assigned and
unique, hence the `Nodup` hypothesis. -/
theorem delete_preserves_nondescendants {fuel N : Nat} {store s' : List Message} {tr : List Nat}
    (hnodup : (store.map (fun m => m.id)).Nodup)
    (h : deleteMessageRecursive fuel N store = some (s', tr)) :
    ∀ m ∈ store, m.id ≠ N → ¬ Reaches store m N → m ∈ s' := by
  obtain ⟨hmem, ⟨t', htr⟩, hsplit, hsrc⟩ := deleteRec_spec fuel N store s' tr h
  intro m hm hne hnr
  refine (hmem m).mpr ⟨hm, ?_⟩
  intro htrm
  rcases hsrc m.id htrm with hid | ⟨q, hq, hqid, hqr⟩
  · exact hne hid
  · exact hnr ((List.inj_on_of_nodup_map hnodup hq hm hqid) ▸ hqr)

theorem delete_preserves_nondescendants_witness :
    msgHelloV2 ∈ [msgHelloV2] :=
  @delete_preserves_nondescendants 4 1 demoStore [msgHelloV2] [3, 1]
    (by decide) (by rfl) msgHelloV2 (by simp [demoStore])
    (by decide)
    (by
      intro hr
      cases hr with
      | parent _ _ hp => simp [msgHelloV2] at hp
      | step _ p _ _ hpar _ => simp [msgHelloV2] at hpar)

/-- **C7.** During the cascading delete, whenever the delete of an id `p`
is issued (at any point of the trace), the deletes of all messages whose
`parent_id` chain reaches `p` — its children and, transitively, all its
descendants — have already been issued: children are always removed before
their parent. -/
theorem delete_children_before_parent {fuel N : Nat} {store s' : List Message} {tr : List Nat}
    (h : deleteMessageRecursive fuel N store = some (s', tr)) :
    ∀ t₁ p t₂, tr = t₁ ++ p :: t₂ → ∀ m ∈ store, Reaches store m p → m.id ∈ t₁ := by
  obtain ⟨hmem, hends, hsplit, hsrc⟩ := deleteRec_spec fuel N store s' tr h
  intro t₁ p t₂ hspl m hm hr
  have main : ∀ (a : Message) (n : Nat), Reaches store a n → n = p → a ∈ store → a.id ∈ t₁ := by
    intro a n hr'
    induction hr' with
    | parent a k hp =>
      rintro rfl ha
      exact hsplit t₁ k t₂ hspl a ha hp
    | step a q k hq hpar _ ih =>
      rintro rfl ha
      have hqid : q.id ∈ t₁ := ih rfl hq
      obtain ⟨u, v, huv⟩ := List.append_of_mem hqid
      have htr' : tr = u ++ q.id :: (v ++ k :: t₂) := by
        rw [hspl, huv]; simp
      exact huv ▸ List.mem_append_left _ (hsplit u q.id (v ++ k :: t₂) htr' a ha hpar)
  exact main m p hr rfl hm

theorem delete_children_before_parent_witness :
    msgReplyA.id ∈ [3] :=
  @delete_children_before_parent 4 1 demoStore [msgHelloV2] [3, 1]
    (by rfl) [3] 1 [] (by rfl) msgReplyA (by simp [demoStore])
    (Reaches.parent msgReplyA 1 (by rfl))

/-! ## Termination of the cascading delete on acyclic stores -/

theorem deleteChildren_none (delRec : Nat → List Message → Option (List Message × List Nat))
    (hrec : RecSpec delRec) :
    ∀ (ids : List Nat) (store : List Message), deleteChildren delRec ids store = none →
      ∃ c ∈ ids, ∃ store', (∀ x ∈ store', x ∈ store) ∧ delRec c store' = none := by
  intro ids
  induction ids with
  | nil => intro store h; simp [deleteChildren] at h
  | cons c cs ih =>
    intro store h
    simp only [deleteChildren] at h
    cases hc : delRec c store with
    | none => exact ⟨c, by simp, store, fun x hx => hx, hc⟩
    | some r₁ =>
      obtain ⟨s₁, tr₁⟩ := r₁
      rw [hc] at h
      dsimp only at h
      cases hcs : deleteChildren delRec cs s₁ with
      | none =>
        obtain ⟨c', hc', store'', hsub, hfail⟩ := ih s₁ hcs
        obtain ⟨hmem₁, _, _, _⟩ := hrec c store s₁ tr₁ hc
        exact ⟨c', by simp [hc'], store'', fun x hx => ((hmem₁ x).mp (hsub x hx)).1, hfail⟩
      | some r₂ =>
        obtain ⟨s₂, tr₂⟩ := r₂
        rw [hcs] at h
        exact absurd h (by simp)

theorem parentChain_of_fail : ∀ (fuel i : Nat) (store : List Message),
    deleteMessageRecursive fuel i store = none →
    ∃ ch : List Message, ch.length = fuel ∧ ParentChain i ch ∧ ∀ m ∈ ch, m ∈ store := by
  intro fuel
  induction fuel with
  | zero => intro i store _; exact ⟨[], rfl, trivial, by simp⟩
  | succ f ih =>
    intro i store h
    simp only [deleteMessageRecursive] at h
    cases hdc : deleteChildren (deleteMessageRecursive f)
        ((store.filter (fun m => m.parent_id == some i)).map (fun m => m.id)) store with
    | some r =>
      obtain ⟨s₁, tr⟩ := r
      rw [hdc] at h
      exact absurd h (by simp)
    | none =>
      obtain ⟨c, hc, store', hsub, hfail⟩ :=
        deleteChildren_none _ (deleteRec_spec f) _ store hdc
      obtain ⟨mc, hmc, hmcid, hmcpar⟩ := mem_childIds.mp hc
      obtain ⟨ch', hlen, hchain, helem⟩ := ih c store' hfail
      refine ⟨mc :: ch', by simp [hlen], ⟨hmcpar, ?_⟩, ?_⟩
      · rw [hmcid]; exact hchain
      · intro m hm
        rcases List.mem_cons.mp hm with rfl | hm'
        · exact hmc
        · exact hsub m (helem m hm')

theorem parentChain_suffix :
    ∀ (u : List Message) (i : Nat) (a : Message) (v : List Message),
      ParentChain i (u ++ a :: v) → ParentChain a.id v := by
  intro u
  induction u with
  | nil => intro i a v h; exact h.2
  | cons b u' ih => intro i a v h; exact ih b.id a v h.2

theorem parentChain_reaches {store : List Message} :
    ∀ (v : List Message) (x : Nat), ParentChain x v → (∀ m ∈ v, m ∈ store) →
      ∀ a ∈ v, Reaches store a x := by
  intro v
  induction v with
  | nil => intro x _ _ a ha; exact absurd ha (by simp)
  | cons w v' ih =>
    intro x hch hmem a ha
    obtain ⟨hwpar, hch'⟩ := hch
    rcases List.mem_cons.mp ha with rfl | ha'
    · exact Reaches.parent a x hwpar
    · have hw : w ∈ store := hmem w (by simp)
      have har : Reaches store a w.id :=
        ih w.id hch' (fun m hm => hmem m (by simp [hm])) a ha'
      exact reaches_trans har hw (Reaches.parent w x hwpar)

theorem exists_dup_split {α : Type _} [DecidableEq α] : ∀ {l : List α}, ¬ l.Nodup →
    ∃ u a v, l = u ++ a :: v ∧ a ∈ v := by
  intro l
  induction l with
  | nil => intro h; exact absurd List.nodup_nil h
  | cons b t ih =>
    intro h
    by_cases hb : b ∈ t
    · exact ⟨[], b, t, rfl, hb⟩
    · have hnt : ¬ t.Nodup := fun hn => h (List.nodup_cons.mpr ⟨hb, hn⟩)
      obtain ⟨u, a, v, rfl, hav⟩ := ih hnt
      exact ⟨b :: u, a, v, rfl, hav⟩

theorem not_reaches_of_parent_none {store : List Message} {m : Message}
    (h : m.parent_id = none) (n : Nat) : ¬ Reaches store m n := by
  intro hr
  cases hr with
  | parent _ _ hp => rw [h] at hp; exact Option.noConfusion hp
  | step _ p _ _ hpar _ => rw [h] at hpar; exact Option.noConfusion hpar

/-- **C10.** For every finite message collection whose `parent_id`
references are acyclic (no message is its own transitive ancestor), the
cascading delete of any id terminates: fuel `store.length + 1` — one level
of recursion per possible chain element — already suffices, and the run
issues only the finitely many store calls recorded in its trace. -/
theorem delete_terminates_on_acyclic {store : List Message} {N : Nat}
    (hacyc : ∀ m ∈ store, ¬ Reaches store m m.id) :
    ∃ s' tr, deleteMessageRecursive (store.length + 1) N store = some (s', tr) := by
  cases hrun : deleteMessageRecursive (store.length + 1) N store with
  | some r =>
    obtain ⟨s', tr⟩ := r
    exact ⟨s', tr, rfl⟩
  | none =>
    obtain ⟨ch, hlen, hchain, helem⟩ := parentChain_of_fail _ N store hrun
    by_cases hnd : ch.Nodup
    · have hsub : ch ⊆ store := fun x hx => helem x hx
      have hle := (hnd.subperm hsub).length_le
      omega
    · obtain ⟨u, a, v, hch, hav⟩ := exists_dup_split hnd
      subst hch
      have hch2 : ParentChain a.id v := parentChain_suffix u N a v hchain
      have hmemv : ∀ m ∈ v, m ∈ store := fun m hm => helem m (by simp [hm])
      have hra : Reaches store a a.id := parentChain_reaches v a.id hch2 hmemv a hav
      exact absurd hra (hacyc a (helem a (by simp)))

theorem demoStore_acyclic : ∀ m ∈ demoStore, ¬ Reaches demoStore m m.id := by
  intro m hm
  have hm' : m = msgHello ∨ m = msgHelloV2 ∨ m = msgReplyA := by
    simpa [demoStore] using hm
  rcases hm' with rfl | rfl | rfl
  · exact not_reaches_of_parent_none rfl _
  · exact not_reaches_of_parent_none rfl _
  · intro hr
    cases hr with
    | parent _ _ hp => simp [msgReplyA] at hp
    | step _ p _ hp hpar hr' =>
      have hpid : p.id = 1 := by
        have := hpar
        simp only [msgReplyA] at this
        exact (Option.some.injEq .. ▸ this).symm
      have hp' : p = msgHello ∨ p = msgHelloV2 ∨ p = msgReplyA := by
        simpa [demoStore] using hp
      rcases hp' with rfl | rfl | rfl
      · exact not_reaches_of_parent_none rfl _ hr'
      · simp [msgHelloV2] at hpid
      · simp [msgReplyA] at hpid

theorem delete_terminates_on_acyclic_witness :
    ∃ s' tr, deleteMessageRecursive (demoStore.length + 1) 1 demoStore = some (s', tr) :=
  delete_terminates_on_acyclic demoStore_acyclic

/-! ## Display ordering of sibling lineages -/

theorem pairwise_orderedInsert {x : Message} :
    ∀ {L : List Message}, L.Pairwise dispOrd → (∀ y ∈ L, dispOrd x y) →
      (List.orderedInsert vOrd x L).Pairwise dispOrd := by
  intro L
  induction L with
  | nil =>
    intro _ _
    simp
  | cons b rest ih =>
    intro hpw hall
    obtain ⟨hb_rest, hrest⟩ := List.pairwise_cons.mp hpw
    by_cases hvb : vOrd x b
    · rw [List.orderedInsert_of_le vOrd rest hvb]
      exact List.pairwise_cons.mpr ⟨hall, hpw⟩
    · have hxb : x.version < b.version := Nat.lt_of_not_le hvb
      simp only [List.orderedInsert, if_neg hvb]
      refine List.pairwise_cons.mpr ⟨?_, ih hrest (fun y hy => hall y (by simp [hy]))⟩
      intro y hy
      rcases (List.mem_orderedInsert vOrd).mp hy with rfl | hy'
      · exact Or.inl hxb
      · exact hb_rest y hy'

theorem pairwise_insertionSort :
    ∀ {l : List Message}, l.Pairwise dispOrd → (List.insertionSort vOrd l).Pairwise dispOrd := by
  intro l
  induction l with
  | nil => intro _; simp
  | cons x xs ih =>
    intro hpw
    obtain ⟨hx, hxs⟩ := List.pairwise_cons.mp hpw
    simp only [List.insertionSort]
    exact pairwise_orderedInsert (ih hxs)
      (fun y hy => hx y ((List.perm_insertionSort vOrd xs).subset hy))

/-- **C5.** For every snapshot that is ordered as the fetch delivers it
(messages sharing a `parent_id` appear in descending `version`, ties in
descending `created_at` — implied by the fetch's
`order by parent_id desc, version desc, created_at desc`), the sibling
list the view renders for any `parent_id` `P` is sorted by descending
`version`, with equal versions in descending `created_at` order.  The
stable sibling sort by `version` alone preserves the fetch's
`created_at` tie-break. -/
theorem render_siblings_sorted {snapshot : List Message} (P : Option Nat)
    (hfetch : snapshot.Pairwise (fun a b => a.parent_id = b.parent_id → dispOrd a b)) :
    (renderSiblings snapshot P).Pairwise dispOrd := by
  unfold renderSiblings
  apply pairwise_insertionSort
  have hf := hfetch.filter (fun m => m.parent_id == P)
  refine hf.imp_of_mem ?_
  intro a b ha hb hr
  have hpa : a.parent_id = P := by
    have := (List.mem_filter.mp ha).2
    simpa using this
  have hpb : b.parent_id = P := by
    have := (List.mem_filter.mp hb).2
    simpa using this
  exact hr (hpa.trans hpb.symm)

theorem render_siblings_sorted_witness :
    ([msgHelloV2, msgHello] : List Message).Pairwise dispOrd :=
  have hres : renderSiblings [msgHelloV2, msgHello, msgReplyA] none =
      [msgHelloV2, msgHello] := by decide
  hres ▸ @render_siblings_sorted [msgHelloV2, msgHello, msgReplyA] none (by decide)

/-! ## The remaining mutation / view claims -/

/-- **C6.** For every state whose input is empty or whitespace-only, the
send/edit operation is a no-op: no insert is issued, the store is
unchanged, and no user-visible error is raised (the whole state, error
banner included, is untouched). -/
theorem send_blank_is_noop (st : AppState) (parentMessage : Option Message)
    (newId now : Nat) (insertOk : Bool) (h : isBlank st.input = true) :
    sendMessage st parentMessage newId now insertOk = st := by
  simp [sendMessage, h]

theorem send_blank_is_noop_witness :
    sendMessage blankState none 9 9 true = blankState :=
  send_blank_is_noop blankState none 9 9 true (by decide)

/-- Counterexample to C4 as stated: with the existing message id 1
(version 1) selected and the non-empty text `" "`, the edit operation
inserts nothing at all — the store is unchanged and in particular contains
no row with `version = E.version + 1 = 2`. -/
theorem edit_whitespace_inserts_nothing :
    (sendMessage editWhitespaceState (some msgHello) 2 10 true).store = [msgHello] ∧
    ∀ m ∈ (sendMessage editWhitespaceState (some msgHello) 2 10 true).store,
      m.version ≠ 2 := by decide

/-- **C4 (amended).** For every existing message `E` and non-blank text
(not empty nor whitespace-only), the edit operation only appends one new
Message with `parent_id = E.parent_id`, `version = E.version + 1` and
`content` the typed text; every pre-existing row, `E` included, is left in
the store unmodified. -/
theorem edit_appends_new_version (st : AppState) (E : Message) (newId now : Nat)
    (h : isBlank st.input = false) :
    (sendMessage st (some E) newId now true).store =
      st.store ++ [⟨newId, st.input, E.parent_id, E.version + 1, now⟩] ∧
    ∀ m ∈ st.store, m ∈ (sendMessage st (some E) newId now true).store := by
  constructor
  · simp [sendMessage, h]
  · intro m hm
    simp [sendMessage, h, hm]

theorem edit_appends_new_version_witness :
    (sendMessage editState (some msgHello) 2 10 true).store =
      [msgHello, ⟨2, "Hello v2", none, 2, 10⟩] ∧
    ∀ m ∈ [msgHello], m ∈ (sendMessage editState (some msgHello) 2 10 true).store :=
  edit_appends_new_version editState msgHello 2 10 (by decide)

/-- **C1 (what the code actually does).** The Branch Reply flow selects the
message and then calls the same `sendMessage` used by Edit: with message
id 1 (`parent_id = null`, `version = 1`) selected and text `"Reply A"`, the
inserted row has `parent_id = null` (= `E.parent_id`) and `version = 2`
(= `E.version + 1`) — not `parent_id = E.id`, `version = 1` — and no row
with `parent_id = E.id` and `version = 1` exists afterwards. -/
theorem branch_reply_does_not_branch :
    (sendMessage branchState (some msgHello) 3 10 true).store =
      [msgHello, ⟨3, "Reply A", none, 2, 10⟩] ∧
    ∀ m ∈ (sendMessage branchState (some msgHello) 3 10 true).store,
      ¬(m.parent_id = some msgHello.id ∧ m.version = 1) := by decide

/-- **C8.** For every prior state, if the full refetch fails, the
user-visible error banner is set and the previous snapshot is left in
place unchanged. -/
theorem fetch_failure_preserves_snapshot (st : AppState) :
    (fetchMessages st none).messages = st.messages ∧
    (fetchMessages st none).errorMessage =
      some "Error fetching messages. Please try again." :=
  ⟨rfl, rfl⟩

theorem toggle_toggle (vis : Nat → Bool) (i : Nat) :
    toggleBranchesVisibility (toggleBranchesVisibility vis i) i = vis := by
  funext j
  simp only [toggleBranchesVisibility]
  by_cases h : j = i
  · subst h; simp
  · simp [h]

/-- **C9.** For every snapshot, visibility map and node id, toggling that
node's visibility twice yields a View Projection output equal to the
output before the two toggles. -/
theorem toggle_twice_render_unchanged (fuel : Nat) (msgs : List Message) (vis : Nat → Bool)
    (i : Nat) (parentId : Option Nat) (level : Nat) :
    renderMessages fuel msgs (toggleBranchesVisibility (toggleBranchesVisibility vis i) i)
        parentId level =
      renderMessages fuel msgs vis parentId level := by
  rw [toggle_toggle]

